import Mathlib

/-!
Verification of the order search-and-filter core of the
`branchreactnativetestbed` OrderSearch component.

The component's pure logic (filter pipeline, status grouping, flattening,
performance tracking) is embedded shallowly: JavaScript numbers are modelled
as rationals, JS strings as Lean strings, and each `useMemo` body becomes a
pure function of its declared inputs.  The Fuse.js fuzzy matcher is an
external dependency whose source is not part of this repository; it is
modelled from the spec (see `fuseSearch`).
-/

namespace OrderSearch

/-- The closed set of order statuses (`'pending' | 'in_progress' | 'completed'`
from the `Order` interface). -/
inductive Status
  | pending
  | in_progress
  | completed
deriving DecidableEq

/-- The string value each `Status` takes at the JavaScript level. -/
def statusStr : Status → String
  | Status.pending => "pending"
  | Status.in_progress => "in_progress"
  | Status.completed => "completed"

/-- The `Order` interface of `OrderSearch.tsx`.  `paymentAmount` (a JS number
used only through `>=` comparisons and display) is modelled as a rational;
`timestamp` (a `Date`, never consulted by the core logic) as an integer. -/
structure Order where
  id : String
  clientCount : Nat
  paymentAmount : ℚ
  storeName : String
  status : Status
  timestamp : Int
  items : Nat
deriving DecidableEq

/-- The `OrderGroup` interface: a status bucket of the grouping engine. -/
structure OrderGroup where
  status : String
  statusLabel : String
  orders : List Order
  count : Nat
deriving DecidableEq

/-- The `PerformanceMetrics` interface. -/
structure PerformanceMetrics where
  lastSearchTime : ℚ
  totalSearches : Nat
  averageSearchTime : ℚ
deriving DecidableEq

/-- JavaScript `String.prototype.trim`: strip whitespace from both ends. -/
def jsTrim (s : String) : String :=
  ⟨List.reverse (List.dropWhile Char.isWhitespace
    (List.reverse (List.dropWhile Char.isWhitespace s.data)))⟩

/-! ### Fuzzy matcher

Modelled from the spec: Fuse.js (the fuzzy matcher consulted by
`filteredOrders`) is a third-party library whose code is not in this
repository; only its configuration (`fuseOptions`: keys `id` and `storeName`,
`threshold: 0.3`, `minMatchCharLength: 2`) is.  Per the spec, a match is
accepted when the edit-distance-normalized dissimilarity between query and
field is at or below the threshold, queries shorter than 2 characters are
not matched fuzzily, and results are relevance-sorted with ties broken by
original repository order. -/

/-- Fuelled Levenshtein edit distance between two character lists.  The fuel
argument only forces structural recursion; it never runs out when called
with `xs.length + ys.length` as in `levenshtein`. -/
def levAux : Nat → List Char → List Char → Nat
  | _, [], ys => ys.length
  | _, _ :: xs, [] => xs.length + 1
  | Nat.succ n, x :: xs, y :: ys =>
      if x = y then levAux n xs ys
      else 1 + min (levAux n xs (y :: ys)) (min (levAux n (x :: xs) ys) (levAux n xs ys))
  | 0, _ :: _, _ :: _ => 0

/-- Levenshtein edit distance between two character lists. -/
def levenshtein (xs ys : List Char) : Nat := levAux (xs.length + ys.length) xs ys

/-- Dissimilarity of a query/field pair as an (unreduced) fraction:
edit distance over the larger of the two lengths. -/
def fieldFrac (q f : List Char) : Nat × Nat := (levenshtein q f, max q.length f.length)

/-- `≤` on fractions represented as numerator/denominator pairs,
by cross multiplication. -/
def fracLe (a b : Nat × Nat) : Bool := decide (a.1 * b.2 ≤ b.1 * a.2)

/-- `<` on fractions represented as numerator/denominator pairs,
by cross multiplication. -/
def fracLt (a b : Nat × Nat) : Bool := decide (a.1 * b.2 < b.1 * a.2)

/-- The `threshold: 0.3` entry of `fuseOptions`, on the 0-to-1
dissimilarity scale. -/
def fuseThreshold : ℚ := 3 / 10

/-- The `minMatchCharLength: 2` entry of `fuseOptions`. -/
def minMatchCharLength : Nat := 2

/-- The normalized dissimilarity between a query and one indexed field,
as a rational on the 0-to-1 scale. -/
def fieldDissim (q f : List Char) : ℚ :=
  (levenshtein q f : ℚ) / (max q.length f.length : ℚ)

/-- Whether one indexed field matches the query: normalized dissimilarity at
or below the threshold, decided by cross multiplication. -/
def fieldMatches (q f : List Char) : Bool := fracLe (fieldFrac q f) (3, 10)

/-- Whether an order matches the query on at least one of the two indexed
fields (`keys: ['id', 'storeName']` in `fuseOptions`). -/
def orderMatches (q : String) (o : Order) : Bool :=
  fieldMatches q.data o.id.data || fieldMatches q.data o.storeName.data

/-- The relevance score of an order: the dissimilarity fraction of its
better-matching field. -/
def orderFrac (q : String) (o : Order) : Nat × Nat :=
  if fracLe (fieldFrac q.data o.id.data) (fieldFrac q.data o.storeName.data)
  then fieldFrac q.data o.id.data
  else fieldFrac q.data o.storeName.data

/-- Stable insertion into a score-sorted list: the inserted order goes after
every strictly better match already present, and before equal scores (so
earlier repository positions win ties). -/
def insertScored (q : String) (o : Order) : List Order → List Order
  | [] => [o]
  | x :: xs =>
      if fracLt (orderFrac q x) (orderFrac q o)
      then x :: insertScored q o xs
      else o :: x :: xs

/-- Stable sort by relevance score, best match first. -/
def sortByScore (q : String) : List Order → List Order
  | [] => []
  | x :: xs => insertScored q x (sortByScore q xs)

/-- Modelled from the spec: `fuse.search` over the index built from `orders`
with `fuseOptions`.  Queries shorter than 2 characters are treated as empty
(no match); otherwise the matching orders are returned relevance-sorted,
best match first, ties broken by repository order. -/
def fuseSearch (orders : List Order) (query : String) : List Order :=
  if (jsTrim query).length < minMatchCharLength then []
  else sortByScore query (orders.filter (fun o => orderMatches query o))

/-! ### Filter pipeline (`filteredOrders` memo) -/

/-- Step 1 of `filteredOrders`: `if (debouncedQuery.trim()) { fuse.search }
else { orders }`. -/
def step1 (orders : List Order) (debouncedQuery : String) : List Order :=
  if jsTrim debouncedQuery ≠ "" then fuseSearch orders debouncedQuery else orders

/-- Step 2 of `filteredOrders`: `if (selectedStatus !== 'all')
result.filter(order => order.status === selectedStatus)`. -/
def applyStatus (l : List Order) (selectedStatus : String) : List Order :=
  if selectedStatus ≠ "all"
  then l.filter (fun o => statusStr o.status == selectedStatus)
  else l

/-- Step 3 of `filteredOrders`:
`result.filter(order => order.paymentAmount >= minPayment)`. -/
def applyPayment (l : List Order) (minPayment : ℚ) : List Order :=
  l.filter (fun o => decide (minPayment ≤ o.paymentAmount))

/-- The `filteredOrders` memo: fuzzy text step, then status filter, then
payment filter. -/
def filteredOrders (orders : List Order) (debouncedQuery selectedStatus : String)
    (minPayment : ℚ) : List Order :=
  applyPayment (applyStatus (step1 orders debouncedQuery) selectedStatus) minPayment

/-! ### Grouping engine (`groupedOrders` memo) -/

/-- The three freshly initialised buckets of `groupedOrders`, in the fixed
display order pending, in_progress, completed. -/
def initGroups : List OrderGroup :=
  [⟨"pending", "Pendiente", [], 0⟩,
   ⟨"in_progress", "En Progreso", [], 0⟩,
   ⟨"completed", "Completado", [], 0⟩]

/-- One iteration of the `filteredOrders.forEach` body: find the first group
whose `status` equals the order's status and push the order into it,
incrementing its count; if no group matches, do nothing. -/
def pushToGroup (o : Order) : List OrderGroup → List OrderGroup
  | [] => []
  | g :: gs =>
      if g.status == statusStr o.status
      then { g with orders := g.orders ++ [o], count := g.count + 1 } :: gs
      else g :: pushToGroup o gs

/-- The `groupedOrders` memo: `null` when grouping is off, otherwise the
status buckets filled from the filtered sequence, with empty buckets
(`count > 0` fails) dropped. -/
def groupedOrders (showGrouped : Bool) (filtered : List Order) : Option (List OrderGroup) :=
  if !showGrouped then none
  else some (((filtered.foldl (fun gs o => pushToGroup o gs) initGroups)).filter
    (fun g => decide (0 < g.count)))

/-- The bucket a status would receive from the grouping engine: its members
are the filtered sequence restricted to that status, in sequence order, and
its count is the number of members. -/
def bucketFor (l : List Order) (s : Status) (label : String) : OrderGroup :=
  ⟨statusStr s, label, l.filter (fun o => o.status == s),
   (l.filter (fun o => o.status == s)).length⟩

/-- Closed form of the grouping engine's output on a filtered sequence: the
three status buckets in display order, empty buckets dropped. -/
def groupsSpec (l : List Order) : List OrderGroup :=
  [bucketFor l Status.pending "Pendiente",
   bucketFor l Status.in_progress "En Progreso",
   bucketFor l Status.completed "Completado"].filter (fun g => decide (0 < g.count))

/-! ### Flattening (`flattenedData` memo) -/

/-- An element of the `(Order | OrderGroup)[]` array handed to the list
renderer. -/
inductive ListItem
  | order (o : Order)
  | header (g : OrderGroup)
deriving DecidableEq

/-- The `flattenedData` memo: the filtered sequence itself when grouping is
off; otherwise, for each group in order, its header followed by its member
orders. -/
def flattenedData (showGrouped : Bool) (filtered : List Order) : List ListItem :=
  match groupedOrders showGrouped filtered with
  | none => filtered.map ListItem.order
  | some gs =>
      gs.foldl (fun acc g => (acc ++ [ListItem.header g]) ++ g.orders.map ListItem.order) []

/-! ### Performance tracker (`setPerformanceMetrics` updater) -/

/-- The initial metrics state passed to `useState`. -/
def initialMetrics : PerformanceMetrics := ⟨0, 0, 0⟩

/-- The `setPerformanceMetrics` functional updater: record one observed
search duration. -/
def recordSearch (prev : PerformanceMetrics) (searchTime : ℚ) : PerformanceMetrics :=
  let newTotal := prev.totalSearches + 1
  let newAverage :=
    (prev.averageSearchTime * (prev.totalSearches : ℚ) + searchTime) / (newTotal : ℚ)
  ⟨searchTime, newTotal, newAverage⟩

/-- The metrics state after recording a sequence of observations starting
from the initial zero state. -/
def runMetrics (obs : List ℚ) : PerformanceMetrics := obs.foldl recordSearch initialMetrics

/-! ### Demonstration data (the spec's end-to-end scenario order set) -/

/-- First order of the spec's end-to-end scenario. -/
def demoOrder1 : Order := ⟨"ORD-0001", 1, 120, "Walmart", Status.pending, 0, 10⟩

/-- Second order of the spec's end-to-end scenario. -/
def demoOrder2 : Order := ⟨"ORD-0002", 2, 80, "Target", Status.completed, 0, 8⟩

/-- Third order of the spec's end-to-end scenario. -/
def demoOrder3 : Order := ⟨"ORD-0003", 3, 200, "Walmart", Status.in_progress, 0, 12⟩

/-- The scenario order set in repository order (payment amount descending). -/
def demoOrders : List Order := [demoOrder3, demoOrder1, demoOrder2]

/-- The grouping engine's output on `demoOrders`. -/
def demoGroups : List OrderGroup :=
  [⟨"pending", "Pendiente", [demoOrder1], 1⟩,
   ⟨"in_progress", "En Progreso", [demoOrder3], 1⟩,
   ⟨"completed", "Completado", [demoOrder2], 1⟩]

/-! ### Helper lemmas -/

/-- `statusStr` is injective: the three status strings are distinct. -/
lemma statusStr_inj {a b : Status} (h : statusStr a = statusStr b) : a = b := by
  cases a <;> cases b <;> first | rfl | exact absurd h (by decide)

/-- None of the three status strings is the wildcard `"all"`. -/
lemma statusStr_ne_all (s : Status) : statusStr s ≠ "all" := by
  cases s <;> decide

/-- The status filter step never adds or reorders: its output is a
subsequence of its input. -/
lemma applyStatus_sublist (l : List Order) (ss : String) :
    (applyStatus l ss).Sublist l := by
  unfold applyStatus
  split
  · exact List.filter_sublist l
  · exact List.Sublist.refl l

/-- The payment filter step never adds or reorders: its output is a
subsequence of its input. -/
lemma applyPayment_sublist (l : List Order) (mp : ℚ) :
    (applyPayment l mp).Sublist l :=
  List.filter_sublist l

/-- The status filter step on the empty list returns the empty list. -/
lemma applyStatus_nil (ss : String) : applyStatus [] ss = [] := by
  unfold applyStatus
  split <;> rfl

/-- The status filter step with the wildcard `"all"` is the identity. -/
lemma applyStatus_all (l : List Order) : applyStatus l "all" = l := by
  simp [applyStatus]

/-! ### Claim theorems: filter pipeline -/

/-- Claim C1: the pipeline applies text matching, then the status filter,
then the payment filter, and steps 2-3 only remove elements: for every order
set, query, status selection and minimum payment, the output sequence is a
subsequence of the step-1 sequence (the fuzzy-match ranking when the trimmed
query is non-empty, the repository sequence otherwise), so the status and
payment filters never reorder surviving elements. -/
theorem pipeline_steps_only_remove (orders : List Order) (q ss : String) (mp : ℚ) :
    filteredOrders orders q ss mp
      = applyPayment (applyStatus (step1 orders q) ss) mp ∧
    (jsTrim q ≠ "" → step1 orders q = fuseSearch orders q) ∧
    (jsTrim q = "" → step1 orders q = orders) ∧
    (∀ l : List Order, (applyStatus l ss).Sublist l ∧ (applyPayment l mp).Sublist l) ∧
    (filteredOrders orders q ss mp).Sublist (step1 orders q) := by
  refine ⟨rfl, ?_, ?_, fun l => ⟨applyStatus_sublist l ss, applyPayment_sublist l mp⟩, ?_⟩
  · intro h
    simp [step1, h]
  · intro h
    simp [step1, h]
  · exact (applyPayment_sublist _ mp).trans (applyStatus_sublist _ ss)

/-- Witness for C1: the pipeline on the scenario data with a whitespace
query, instantiating the hypotheses of the step-1 characterisation. -/
theorem pipeline_steps_only_remove_witness :
    jsTrim " " = "" ∧ step1 demoOrders " " = demoOrders ∧
    (filteredOrders demoOrders " " "all" 0).Sublist (step1 demoOrders " ") :=
  ⟨by decide, (pipeline_steps_only_remove demoOrders " " "all" 0).2.2.1 (by decide),
   (pipeline_steps_only_remove demoOrders " " "all" 0).2.2.2.2⟩

/-- Claim C2: every order surviving the pipeline satisfies
`minPayment ≤ paymentAmount`, and the payment filter is monotone: raising the
threshold shrinks the result to a subsequence, so never a larger set. -/
theorem payment_filter_sound_monotone (orders : List Order) (q ss : String)
    (mp1 mp2 : ℚ) (h : mp1 ≤ mp2) :
    (∀ o ∈ filteredOrders orders q ss mp1, mp1 ≤ o.paymentAmount) ∧
    (filteredOrders orders q ss mp2).Sublist (filteredOrders orders q ss mp1) ∧
    (filteredOrders orders q ss mp2).length ≤ (filteredOrders orders q ss mp1).length := by
  have hsub : (filteredOrders orders q ss mp2).Sublist (filteredOrders orders q ss mp1) := by
    unfold filteredOrders applyPayment
    refine List.monotone_filter_right _ ?_
    intro o ho
    have := of_decide_eq_true ho
    exact decide_eq_true (le_trans h this)
  refine ⟨?_, hsub, hsub.length_le⟩
  intro o ho
  have := (List.mem_filter.mp ho).2
  exact of_decide_eq_true this

/-- Witness for C2: thresholds 0 and 100 on the scenario data. -/
theorem payment_filter_sound_monotone_witness :
    (0 : ℚ) ≤ 100 ∧
    (∀ o ∈ filteredOrders demoOrders "" "all" 0, (0 : ℚ) ≤ o.paymentAmount) ∧
    (filteredOrders demoOrders "" "all" 100).Sublist (filteredOrders demoOrders "" "all" 0) ∧
    (filteredOrders demoOrders "" "all" 100).length
      ≤ (filteredOrders demoOrders "" "all" 0).length :=
  ⟨by decide, payment_filter_sound_monotone demoOrders "" "all" 0 100 (by decide)⟩

/-- Claim C3: with a concrete status selected, every order surviving the
pipeline has exactly that status; with the wildcard `"all"`, the output
equals the text and payment steps alone, with no status exclusion. -/
theorem status_filter_partition (orders : List Order) (q : String) (mp : ℚ) :
    (∀ s : Status, ∀ o ∈ filteredOrders orders q (statusStr s) mp, o.status = s) ∧
    filteredOrders orders q "all" mp = applyPayment (step1 orders q) mp := by
  constructor
  · intro s o ho
    have ho2 : o ∈ applyStatus (step1 orders q) (statusStr s) :=
      List.mem_filter.mp ho |>.1
    unfold applyStatus at ho2
    rw [if_pos (statusStr_ne_all s)] at ho2
    have := (List.mem_filter.mp ho2).2
    exact statusStr_inj (by simpa using this)
  · unfold filteredOrders
    rw [applyStatus_all]

/-- Witness for C3: the pending-status filter on the scenario data accepts
`demoOrder1` and its status is indeed `pending`. -/
theorem status_filter_partition_witness :
    demoOrder1 ∈ filteredOrders demoOrders "" (statusStr Status.pending) 0 ∧
    demoOrder1.status = Status.pending :=
  ⟨by decide, (status_filter_partition demoOrders "" 0).1 Status.pending demoOrder1 (by decide)⟩

/-- Claim C8: an empty or whitespace-only query bypasses the fuzzy matcher:
step 1 returns the full order set unchanged, in repository order, and the
pipeline output is just the status and payment filters applied to it. -/
theorem empty_query_skips_matcher (orders : List Order) (ss : String) (mp : ℚ)
    (q : String) (hq : jsTrim q = "") :
    step1 orders q = orders ∧
    filteredOrders orders q ss mp = applyPayment (applyStatus orders ss) mp := by
  have h1 : step1 orders q = orders := by simp [step1, hq]
  exact ⟨h1, by rw [filteredOrders, h1]⟩

/-- Witness for C8: the single-space query on the scenario data. -/
theorem empty_query_skips_matcher_witness :
    jsTrim " " = "" ∧ step1 demoOrders " " = demoOrders ∧
    filteredOrders demoOrders " " "all" 0 = applyPayment (applyStatus demoOrders "all") 0 :=
  ⟨by decide, empty_query_skips_matcher demoOrders "all" 0 " " (by decide)⟩

/-- Claim C9: a non-empty query shorter than 2 characters after trimming is
treated as empty by the matcher — it matches no field of any order, so the
fuzzy step returns nothing and no order is accepted from it. -/
theorem short_query_not_fuzzy_matched (orders : List Order) (ss : String) (mp : ℚ)
    (q : String) (hne : jsTrim q ≠ "") (hshort : (jsTrim q).length < minMatchCharLength) :
    fuseSearch orders q = [] ∧ filteredOrders orders q ss mp = [] := by
  have h1 : fuseSearch orders q = [] := by
    unfold fuseSearch
    rw [if_pos hshort]
  refine ⟨h1, ?_⟩
  have h2 : step1 orders q = [] := by
    rw [step1, if_pos hne, h1]
  rw [filteredOrders, h2, applyStatus_nil]
  rfl

/-- Witness for C9: the one-character query `"W"`. -/
theorem short_query_not_fuzzy_matched_witness :
    jsTrim "W" ≠ "" ∧ (jsTrim "W").length < minMatchCharLength ∧
    fuseSearch demoOrders "W" = [] ∧ filteredOrders demoOrders "W" "all" 0 = [] :=
  ⟨by decide, by decide,
   short_query_not_fuzzy_matched demoOrders "all" 0 "W" (by decide) (by decide)⟩

/-! ### Grouping engine lemmas -/

/-- Running the `forEach` body over a whole filtered sequence, starting from
buckets already holding some members: each bucket ends up with its prior
members followed by the sequence's orders of its status, and its count stays
equal to its member count. -/
lemma foldl_pushToGroup (l : List Order) (p1 p2 p3 : List Order) :
    l.foldl (fun gs o => pushToGroup o gs)
      [⟨"pending", "Pendiente", p1, p1.length⟩,
       ⟨"in_progress", "En Progreso", p2, p2.length⟩,
       ⟨"completed", "Completado", p3, p3.length⟩]
    = [⟨"pending", "Pendiente", p1 ++ l.filter (fun o => o.status == Status.pending),
        (p1 ++ l.filter (fun o => o.status == Status.pending)).length⟩,
       ⟨"in_progress", "En Progreso", p2 ++ l.filter (fun o => o.status == Status.in_progress),
        (p2 ++ l.filter (fun o => o.status == Status.in_progress)).length⟩,
       ⟨"completed", "Completado", p3 ++ l.filter (fun o => o.status == Status.completed),
        (p3 ++ l.filter (fun o => o.status == Status.completed)).length⟩] := by
  induction l generalizing p1 p2 p3 with
  | nil => simp
  | cons o l ih =>
    rw [List.foldl_cons]
    cases h : o.status
    case pending =>
      have hpush : pushToGroup o
          [⟨"pending", "Pendiente", p1, p1.length⟩,
           ⟨"in_progress", "En Progreso", p2, p2.length⟩,
           ⟨"completed", "Completado", p3, p3.length⟩]
          = [⟨"pending", "Pendiente", p1 ++ [o], (p1 ++ [o]).length⟩,
             ⟨"in_progress", "En Progreso", p2, p2.length⟩,
             ⟨"completed", "Completado", p3, p3.length⟩] := by
        simp [pushToGroup, statusStr, h]
      rw [hpush, ih]
      simp [h, List.filter_cons]
    case in_progress =>
      have hpush : pushToGroup o
          [⟨"pending", "Pendiente", p1, p1.length⟩,
           ⟨"in_progress", "En Progreso", p2, p2.length⟩,
           ⟨"completed", "Completado", p3, p3.length⟩]
          = [⟨"pending", "Pendiente", p1, p1.length⟩,
             ⟨"in_progress", "En Progreso", p2 ++ [o], (p2 ++ [o]).length⟩,
             ⟨"completed", "Completado", p3, p3.length⟩] := by
        simp [pushToGroup, statusStr, h]
      rw [hpush, ih]
      simp [h, List.filter_cons]
    case completed =>
      have hpush : pushToGroup o
          [⟨"pending", "Pendiente", p1, p1.length⟩,
           ⟨"in_progress", "En Progreso", p2, p2.length⟩,
           ⟨"completed", "Completado", p3, p3.length⟩]
          = [⟨"pending", "Pendiente", p1, p1.length⟩,
             ⟨"in_progress", "En Progreso", p2, p2.length⟩,
             ⟨"completed", "Completado", p3 ++ [o], (p3 ++ [o]).length⟩] := by
        simp [pushToGroup, statusStr, h]
      rw [hpush, ih]
      simp [h, List.filter_cons]

/-- The grouping engine, when enabled, produces exactly the closed-form
status buckets with empty buckets dropped. -/
lemma groupedOrders_eq_groupsSpec (l : List Order) :
    groupedOrders true l = some (groupsSpec l) := by
  unfold groupedOrders groupsSpec bucketFor initGroups
  rw [show (0 : Nat) = ([] : List Order).length from rfl]
  rw [foldl_pushToGroup l [] [] []]
  simp [statusStr]

/-- Splitting a list of orders into its three status classes, in bucket
order, is a permutation of the list. -/
lemma filter_status_partition_perm (l : List Order) :
    List.Perm
      (l.filter (fun o => o.status == Status.pending)
        ++ (l.filter (fun o => o.status == Status.in_progress)
          ++ l.filter (fun o => o.status == Status.completed))) l := by
  induction l with
  | nil => simp
  | cons o l ih =>
    cases h : o.status
    case pending =>
      simpa [List.filter_cons, h] using ih.cons o
    case in_progress =>
      simp only [List.filter_cons, h]
      simp only [show (Status.in_progress == Status.pending) = false from rfl,
        show (Status.in_progress == Status.in_progress) = true from rfl,
        show (Status.in_progress == Status.completed) = false from rfl,
        Bool.false_eq_true, if_false, if_true]
      exact List.perm_middle.trans (ih.cons o)
    case completed =>
      simp only [List.filter_cons, h]
      simp only [show (Status.completed == Status.pending) = false from rfl,
        show (Status.completed == Status.in_progress) = false from rfl,
        show (Status.completed == Status.completed) = true from rfl,
        Bool.false_eq_true, if_false, if_true]
      refine List.Perm.trans ?_ (ih.cons o)
      exact (List.Perm.append_left _ List.perm_middle).trans List.perm_middle

/-- Dropping empty groups (count zero, hence no members) does not change the
concatenation of the groups' member lists. -/
lemma flatten_filter_count (gs : List OrderGroup)
    (h : ∀ g ∈ gs, g.count = g.orders.length) :
    ((gs.filter (fun g => decide (0 < g.count))).map OrderGroup.orders).flatten
      = (gs.map OrderGroup.orders).flatten := by
  induction gs with
  | nil => rfl
  | cons g gs ih =>
    have hg := h g (List.mem_cons_self g gs)
    have hrest : ∀ g' ∈ gs, g'.count = g'.orders.length :=
      fun g' hg' => h g' (List.mem_cons_of_mem g hg')
    rw [List.filter_cons]
    by_cases hc : 0 < g.count
    · simp [hc, ih hrest]
    · have horders : g.orders = [] := by
        have : g.orders.length = 0 := by omega
        exact List.length_eq_zero.mp this
      simp [hc, ih hrest, horders]

/-- Every bucket of the closed-form grouping output has its count equal to
its member count. -/
lemma groupsSpec_count_eq (l : List Order) :
    ∀ g ∈ groupsSpec l, g.count = g.orders.length := by
  intro g hg
  have := (List.mem_filter.mp hg).1
  simp only [List.mem_cons, List.not_mem_nil, or_false] at this
  rcases this with h | h | h <;> subst h <;> rfl

/-- The concatenation of the grouping output's member lists, in bucket
order, is the filtered sequence split into its three status classes. -/
lemma groupsSpec_flatten (l : List Order) :
    ((groupsSpec l).map OrderGroup.orders).flatten
      = l.filter (fun o => o.status == Status.pending)
        ++ (l.filter (fun o => o.status == Status.in_progress)
          ++ l.filter (fun o => o.status == Status.completed)) := by
  have hcnt : ∀ g ∈ [bucketFor l Status.pending "Pendiente",
      bucketFor l Status.in_progress "En Progreso",
      bucketFor l Status.completed "Completado"], g.count = g.orders.length := by
    intro g hg
    simp only [List.mem_cons, List.not_mem_nil, or_false] at hg
    rcases hg with h | h | h <;> subst h <;> rfl
  rw [groupsSpec, flatten_filter_count _ hcnt]
  simp [bucketFor]

/-- The concatenation of the grouping output's member lists is a permutation
of the filtered sequence. -/
lemma groupsSpec_flatten_perm (l : List Order) :
    List.Perm (((groupsSpec l).map OrderGroup.orders).flatten) l := by
  rw [groupsSpec_flatten]
  exact filter_status_partition_perm l

/-! ### Claim theorems: grouping engine and flattening -/

/-- Claim C4: the grouping engine partitions the filtered sequence exactly:
the retained buckets, in the fixed order pending, in_progress, completed,
concatenate to the three status classes of the filtered sequence, a
permutation of it (each order exactly once); every retained bucket is
non-empty, keeps its members in filtered-sequence order (a subsequence),
holds only orders of its own status, and counts exactly its members. -/
theorem grouping_partitions_exactly (l : List Order) :
    groupedOrders true l = some (groupsSpec l) ∧
    ((groupsSpec l).map OrderGroup.orders).flatten
      = l.filter (fun o => o.status == Status.pending)
        ++ (l.filter (fun o => o.status == Status.in_progress)
          ++ l.filter (fun o => o.status == Status.completed)) ∧
    List.Perm (((groupsSpec l).map OrderGroup.orders).flatten) l ∧
    ∀ g ∈ groupsSpec l, g.count = g.orders.length ∧ 0 < g.count ∧
      g.orders.Sublist l ∧ ∀ o ∈ g.orders, statusStr o.status = g.status := by
  refine ⟨groupedOrders_eq_groupsSpec l, groupsSpec_flatten l, groupsSpec_flatten_perm l, ?_⟩
  intro g hg
  have hcnt := groupsSpec_count_eq l g hg
  have hpos : 0 < g.count := of_decide_eq_true (List.mem_filter.mp hg).2
  have hmem := (List.mem_filter.mp hg).1
  simp only [List.mem_cons, List.not_mem_nil, or_false] at hmem
  refine ⟨hcnt, hpos, ?_, ?_⟩
  · rcases hmem with h | h | h <;> subst h <;> exact List.filter_sublist l
  · intro o ho
    rcases hmem with h | h | h <;> subst h <;>
      · have := (List.mem_filter.mp ho).2
        have hs := eq_of_beq this
        rw [hs]
        rfl

/-- Witness for C4: on the scenario data, the pending bucket survives and
its single member is the pending order. -/
theorem grouping_partitions_exactly_witness :
    OrderGroup.mk "pending" "Pendiente" [demoOrder1] 1 ∈ groupsSpec demoOrders ∧
    (OrderGroup.mk "pending" "Pendiente" [demoOrder1] 1).count
      = (OrderGroup.mk "pending" "Pendiente" [demoOrder1] 1).orders.length ∧
    demoOrder1.status = Status.pending :=
  ⟨by decide,
   ((grouping_partitions_exactly demoOrders).2.2.2 _ (by decide)).1,
   by decide⟩

/-- Claim C10: the grouping engine never silently discards an order: for
every possible order status, the bucket lookup over the freshly initialised
groups succeeds, and consequently the retained buckets' members and counts
add up to the whole filtered sequence, none lost. -/
theorem grouping_lookup_total (l : List Order) :
    (∀ o : Order, (initGroups.find? (fun g => g.status == statusStr o.status)).isSome = true) ∧
    groupedOrders true l = some (groupsSpec l) ∧
    ((groupsSpec l).map OrderGroup.orders).flatten.length = l.length ∧
    ((groupsSpec l).map OrderGroup.count).sum = l.length := by
  refine ⟨?_, groupedOrders_eq_groupsSpec l, (groupsSpec_flatten_perm l).length_eq, ?_⟩
  · intro o
    cases o.status <;> decide
  · have hmap : (groupsSpec l).map OrderGroup.count
        = (groupsSpec l).map (fun g => g.orders.length) :=
      List.map_congr_left (fun g hg => groupsSpec_count_eq l g hg)
    rw [hmap]
    have : ((groupsSpec l).map (fun g => g.orders.length)).sum
        = (((groupsSpec l).map OrderGroup.orders).map List.length).sum := by
      rw [List.map_map]
      rfl
    rw [this, ← List.length_flatten]
    exact (groupsSpec_flatten_perm l).length_eq

/-- Accumulator form of the `flattenedData` fold: it appends, after the
accumulator, each group's header followed by its members. -/
lemma foldl_flattenItems (gs : List OrderGroup) (acc : List ListItem) :
    gs.foldl (fun acc g => (acc ++ [ListItem.header g]) ++ g.orders.map ListItem.order) acc
      = acc ++ (gs.map (fun g => ListItem.header g :: g.orders.map ListItem.order)).flatten := by
  induction gs generalizing acc with
  | nil => simp
  | cons g gs ih =>
    rw [List.foldl_cons, ih]
    simp

/-- Claim C5: the flattened render sequence is, when grouping is enabled,
the concatenation over the retained groups, in bucket order, of the group
header immediately followed by that group's members; when grouping is
disabled it is the filtered sequence itself, unchanged. -/
theorem flattening_contract (filtered : List Order) :
    flattenedData false filtered = filtered.map ListItem.order ∧
    ∀ gs : List OrderGroup, groupedOrders true filtered = some gs →
      flattenedData true filtered
        = (gs.map (fun g => ListItem.header g :: g.orders.map ListItem.order)).flatten := by
  constructor
  · rfl
  · intro gs h
    unfold flattenedData
    rw [h]
    show List.foldl _ [] gs = _
    rw [foldl_flattenItems]
    rfl

/-- Witness for C5: the scenario data flattens to header/members runs for
its three groups. -/
theorem flattening_contract_witness :
    groupedOrders true demoOrders = some demoGroups ∧
    flattenedData true demoOrders
      = (demoGroups.map (fun g => ListItem.header g :: g.orders.map ListItem.order)).flatten :=
  ⟨by decide, (flattening_contract demoOrders).2 demoGroups (by decide)⟩

/-! ### Performance tracker lemmas -/

/-- Recording a sequence of observations adds exactly its length to the run
counter. -/
lemma foldl_record_total (obs : List ℚ) (m : PerformanceMetrics) :
    (obs.foldl recordSearch m).totalSearches = m.totalSearches + obs.length := by
  induction obs generalizing m with
  | nil => rfl
  | cons d l ih =>
    rw [List.foldl_cons, ih]
    simp [recordSearch]
    omega

/-- Invariant of the running mean: the average times the run count equals
the accumulated sum of observations. -/
lemma foldl_record_avg (obs : List ℚ) (m : PerformanceMetrics) :
    (obs.foldl recordSearch m).averageSearchTime * ((obs.foldl recordSearch m).totalSearches : ℚ)
      = m.averageSearchTime * (m.totalSearches : ℚ) + obs.sum := by
  induction obs generalizing m with
  | nil => simp
  | cons d l ih =>
    rw [List.foldl_cons, ih]
    simp only [recordSearch]
    push_cast
    rw [div_mul_cancel₀ _ (by positivity : ((m.totalSearches : ℚ) + 1) ≠ 0),
      List.sum_cons]
    ring

/-- The average after recording a non-empty observation sequence from the
initial state is exactly the arithmetic mean. -/
lemma runMetrics_avg (obs : List ℚ) (h : obs ≠ []) :
    (runMetrics obs).averageSearchTime = obs.sum / (obs.length : ℚ) := by
  have htot : (runMetrics obs).totalSearches = obs.length := by
    rw [runMetrics, foldl_record_total]
    simp [initialMetrics]
  have havg := foldl_record_avg obs initialMetrics
  rw [show obs.foldl recordSearch initialMetrics = runMetrics obs from rfl, htot] at havg
  simp only [initialMetrics] at havg
  have hlen : ((obs.length : ℚ)) ≠ 0 :=
    Nat.cast_ne_zero.mpr (fun hz => h (List.length_eq_zero.mp hz))
  rw [eq_div_iff hlen]
  rw [havg]
  ring

/-! ### Claim theorem: performance tracker -/

/-- Claim C6: one recording sets the last duration to the observation,
increments the run counter by exactly one, and updates the average with the
pre-increment count; over any non-empty observation sequence from the
initial zero state, the run counter equals the number of observations and
the average lies between any lower and upper bound of the observations (in
particular between their minimum and maximum). -/
theorem performance_tracker_running_mean (prev : PerformanceMetrics) (d : ℚ)
    (obs : List ℚ) (lo hi : ℚ) (hne : obs ≠ [])
    (hlo : ∀ x ∈ obs, lo ≤ x) (hhi : ∀ x ∈ obs, x ≤ hi) :
    (recordSearch prev d).lastSearchTime = d ∧
    (recordSearch prev d).totalSearches = prev.totalSearches + 1 ∧
    (recordSearch prev d).averageSearchTime
      = (prev.averageSearchTime * (prev.totalSearches : ℚ) + d)
        / ((prev.totalSearches : ℚ) + 1) ∧
    (runMetrics obs).totalSearches = obs.length ∧
    lo ≤ (runMetrics obs).averageSearchTime ∧
    (runMetrics obs).averageSearchTime ≤ hi := by
  have hlenpos : (0 : ℚ) < (obs.length : ℚ) := by
    exact_mod_cast List.length_pos.mpr hne
  have htot : (runMetrics obs).totalSearches = obs.length := by
    rw [runMetrics, foldl_record_total]
    simp [initialMetrics]
  have havg := runMetrics_avg obs hne
  refine ⟨rfl, rfl, ?_, htot, ?_, ?_⟩
  · simp only [recordSearch]
    push_cast
    ring
  · rw [havg, le_div_iff₀ hlenpos]
    have hsum := List.card_nsmul_le_sum obs lo hlo
    rw [nsmul_eq_mul] at hsum
    linarith
  · rw [havg, div_le_iff₀ hlenpos]
    have hsum := List.sum_le_card_nsmul obs hi hhi
    rw [nsmul_eq_mul] at hsum
    linarith

/-- Witness for C6: the observations 1 and 3 from the initial state, with
bounds 1 and 3; the running mean lands at 2, within the bounds. -/
theorem performance_tracker_running_mean_witness :
    ([1, 3] : List ℚ) ≠ [] ∧
    (∀ x ∈ ([1, 3] : List ℚ), 1 ≤ x) ∧ (∀ x ∈ ([1, 3] : List ℚ), x ≤ 3) ∧
    ((recordSearch initialMetrics 5).lastSearchTime = 5 ∧
     (recordSearch initialMetrics 5).totalSearches = initialMetrics.totalSearches + 1 ∧
     (recordSearch initialMetrics 5).averageSearchTime
       = (initialMetrics.averageSearchTime * (initialMetrics.totalSearches : ℚ) + 5)
         / ((initialMetrics.totalSearches : ℚ) + 1) ∧
     (runMetrics [1, 3]).totalSearches = ([1, 3] : List ℚ).length ∧
     (1 : ℚ) ≤ (runMetrics [1, 3]).averageSearchTime ∧
     (runMetrics [1, 3]).averageSearchTime ≤ 3) :=
  ⟨by decide, by decide, by decide,
   performance_tracker_running_mean initialMetrics 5 [1, 3] 1 3
     (by decide) (by decide) (by decide)⟩

/-! ### Fuzzy matcher lemmas -/

/-- Stable insertion adds exactly the inserted element to the list's
members. -/
lemma mem_insertScored (q : String) (o x : Order) (l : List Order) :
    x ∈ insertScored q o l ↔ x = o ∨ x ∈ l := by
  induction l with
  | nil => simp [insertScored]
  | cons y l ih =>
    unfold insertScored
    split
    · rw [List.mem_cons, ih, List.mem_cons]
      tauto
    · simp only [List.mem_cons]

/-- Relevance sorting does not change the set of members. -/
lemma mem_sortByScore (q : String) (x : Order) (l : List Order) :
    x ∈ sortByScore q l ↔ x ∈ l := by
  induction l with
  | nil => exact Iff.rfl
  | cons y l ih =>
    unfold sortByScore
    rw [mem_insertScored, ih, List.mem_cons]

/-- The cross-multiplied field acceptance test decides exactly the spec's
condition: normalized dissimilarity at or below the 0.3 threshold. -/
lemma fieldMatches_iff (q f : List Char) (h : 0 < max q.length f.length) :
    fieldMatches q f = true ↔ fieldDissim q f ≤ fuseThreshold := by
  unfold fieldMatches fieldDissim fuseThreshold fracLe fieldFrac
  rw [decide_eq_true_eq]
  rw [div_le_div_iff₀ (by exact_mod_cast h) (by norm_num)]
  constructor
  · intro hn
    exact_mod_cast hn
  · intro hn
    exact_mod_cast hn

/-- Trimming never lengthens a string. -/
lemma jsTrim_length_le (s : String) : (jsTrim s).length ≤ s.length := by
  show (List.reverse (List.dropWhile Char.isWhitespace
    (List.reverse (List.dropWhile Char.isWhitespace s.data)))).length ≤ s.data.length
  rw [List.length_reverse]
  calc (List.dropWhile Char.isWhitespace
          (List.reverse (List.dropWhile Char.isWhitespace s.data))).length
      ≤ (List.reverse (List.dropWhile Char.isWhitespace s.data)).length :=
        (List.dropWhile_sublist _).length_le
    _ = (List.dropWhile Char.isWhitespace s.data).length := List.length_reverse _
    _ ≤ s.data.length := (List.dropWhile_sublist _).length_le

/-! ### Claim theorem: fuzzy tolerance -/

/-- Claim C7: at the default threshold 0.3, the query `"Walmar"` matches the
order whose `storeName` is `"Walmart"` while `"Zzzzz"` does not; and in
general an order is in the fuzzy results exactly when the query passes the
length gate and the normalized dissimilarity to one of its indexed fields
(`id` or `storeName`) is at or below the threshold. -/
theorem fuzzy_threshold_matching :
    demoOrder1 ∈ fuseSearch [demoOrder1] "Walmar" ∧
    demoOrder1 ∉ fuseSearch [demoOrder1] "Zzzzz" ∧
    ∀ (orders : List Order) (q : String) (o : Order),
      o ∈ fuseSearch orders q ↔
        o ∈ orders ∧ minMatchCharLength ≤ (jsTrim q).length ∧
          (fieldDissim q.data o.id.data ≤ fuseThreshold
            ∨ fieldDissim q.data o.storeName.data ≤ fuseThreshold) := by
  refine ⟨by decide, by decide, ?_⟩
  intro orders q o
  unfold fuseSearch
  split
  case isTrue h =>
    simp only [List.not_mem_nil, false_iff]
    rintro ⟨-, hlen, -⟩
    exact absurd hlen (Nat.not_le.mpr h)
  case isFalse h =>
    rw [mem_sortByScore, List.mem_filter]
    have hlen : minMatchCharLength ≤ (jsTrim q).length := Nat.le_of_not_lt h
    have hq : 0 < q.data.length := by
      have h2 : 2 ≤ (jsTrim q).length := hlen
      have h3 : (jsTrim q).length ≤ q.length := jsTrim_length_le q
      have h4 : q.length = q.data.length := rfl
      omega
    have hid : 0 < max q.data.length o.id.data.length :=
      lt_of_lt_of_le hq (le_max_left _ _)
    have hsn : 0 < max q.data.length o.storeName.data.length :=
      lt_of_lt_of_le hq (le_max_left _ _)
    constructor
    · rintro ⟨hmem, hmatch⟩
      refine ⟨hmem, hlen, ?_⟩
      unfold orderMatches at hmatch
      rcases (Bool.or_eq_true _ _).mp hmatch with h1 | h2
      · exact Or.inl ((fieldMatches_iff _ _ hid).mp h1)
      · exact Or.inr ((fieldMatches_iff _ _ hsn).mp h2)
    · rintro ⟨hmem, -, hdis⟩
      refine ⟨hmem, ?_⟩
      unfold orderMatches
      rcases hdis with h1 | h2
      · exact (Bool.or_eq_true _ _).mpr (Or.inl ((fieldMatches_iff _ _ hid).mpr h1))
      · exact (Bool.or_eq_true _ _).mpr (Or.inr ((fieldMatches_iff _ _ hsn).mpr h2))

end OrderSearch
